import Mathlib

/-!
# Verification of the Bayesian decision-tree induction engine

Shallow embedding of the core tree code of `bayesian_decision_tree`
(`base.py` and `base_hyperplane.py`): node data model, recursive fit with an
opaque optimizer, prediction routing, pruning, tree metrics and the
error-raising entry points.  Real arithmetic on features and hyperplanes is
modelled with exact rationals.
-/

namespace BDT

/-- The Bayesian model hooks supplied by concrete subclasses (out of scope of
the core engine; consumed as an interface).  `compute_posterior prior y d`
models `self._compute_posterior(y, delta)` on a node whose `prior` field is
`prior`; `predict_leaf` models `self._predict_leaf()` as a function of the
stored posterior. -/
structure Hooks (P : Type) where
  compute_posterior : P → List ℚ → ℚ → P
  predict_leaf : P → ℚ

/-- A tree node, mirroring the mutable Python object after the relevant
assignments: `level`, `prior`, `posterior` (`None` before fitting),
`n_dim` (`None` until fit), `best_hyperplane_normal` / `best_hyperplane_origin`
(`None` on leaves) and the two optional children. -/
inductive Node (P : Type) where
  | mk (level : ℕ) (prior : P) (posterior : Option P) (n_dim : Option ℕ)
       (normal : Option (List ℚ)) (origin : Option (List ℚ))
       (child1 : Option (Node P)) (child2 : Option (Node P))

namespace Node

variable {P : Type}

def level : Node P → ℕ
  | mk l _ _ _ _ _ _ _ => l

def prior : Node P → P
  | mk _ p _ _ _ _ _ _ => p

def posterior : Node P → Option P
  | mk _ _ p _ _ _ _ _ => p

def n_dim : Node P → Option ℕ
  | mk _ _ _ d _ _ _ _ => d

def normal : Node P → Option (List ℚ)
  | mk _ _ _ _ n _ _ _ => n

def origin : Node P → Option (List ℚ)
  | mk _ _ _ _ _ o _ _ => o

def child1 : Node P → Option (Node P)
  | mk _ _ _ _ _ _ c _ => c

def child2 : Node P → Option (Node P)
  | mk _ _ _ _ _ _ _ c => c

/-- Number of nodes of a tree, a structural measure used in terminations. -/
def size : Node P → ℕ
  | mk _ _ _ _ _ _ c1 c2 =>
      1 + (match c1 with | some t => t.size | none => 0)
        + (match c2 with | some t => t.size | none => 0)

end Node

/-- Dot product of two rational vectors (`np.dot` on matching lengths). -/
def dot (a b : List ℚ) : ℚ := (List.zipWith (· * ·) a b).sum

/-- Signed distance of a row to the hyperplane `(normal, origin)`:
one entry of `X @ normal - np.dot(normal, origin)`. -/
def signedDist (nl o row : List ℚ) : ℚ := dot row nl - dot nl o

/-- Row `i` of the data matrix (`X[i]`). -/
def rowOf (X : List (List ℚ)) (i : ℕ) : List ℚ := X.getD i []

/-- Indices `np.where(projections < 0)[0]` for
`projections = X @ normal - normal·origin`. -/
def indicesBack (nl o : List ℚ) (X : List (List ℚ)) : List ℕ :=
  (List.range X.length).filter fun i => signedDist nl o (rowOf X i) < 0

/-- Indices `np.where(projections >= 0)[0]`. -/
def indicesFront (nl o : List ℚ) (X : List (List ℚ)) : List ℕ :=
  (List.range X.length).filter fun i => ¬ signedDist nl o (rowOf X i) < 0

/-- Column count `X.shape[1]` of a (normalized, rectangular) matrix. -/
def ncols (X : List (List ℚ)) : ℕ := (X.headD []).length

/-- The opaque optimizer collaborator: `optimizer.solve(optimization_function)`
followed by reading `best_hyperplane_normal` / `best_hyperplane_origin` off the
optimization function.  The optimization function is constructed from `X`, `y`
and the model hooks, so the outcome is a function of the data: either a best
hyperplane `(normal, origin)` or `none` when no improving split was found. -/
def Optimizer : Type := List (List ℚ) → List ℚ → Option (List ℚ × List ℚ)

variable {P : Type}

/-- Embedding of `BaseHyperplaneNode._fit`: run the optimizer; if it found a hyperplane,
partition by signed distance; when both partitions are non-empty, store the
hyperplane, seed two children (with posteriors over their partitions as
priors), recurse into a child iff it holds more than one sample, and otherwise
set the single-sample child's posterior directly; always store this node's own
`n_dim` and posterior. -/
def fitNode (hk : Hooks P) (opt : Optimizer) :
    ℕ → P → List (List ℚ) → List ℚ → Node P
  | level, prior, X, y =>
    match opt X y with
    | none =>
        Node.mk level prior (some (hk.compute_posterior prior y 1)) (some (ncols X))
          none none none none
    | some (nl, o) =>
        if _h : indicesBack nl o X ≠ [] ∧ indicesFront nl o X ≠ [] then
          Node.mk level prior (some (hk.compute_posterior prior y 1)) (some (ncols X))
            (some nl) (some o)
            (some
              (if 1 < (indicesBack nl o X).length then
                fitNode hk opt (level + 1)
                  (hk.compute_posterior prior ((indicesBack nl o X).map fun i => y.getD i 0) 0)
                  ((indicesBack nl o X).map (rowOf X))
                  ((indicesBack nl o X).map fun i => y.getD i 0)
              else
                Node.mk (level + 1)
                  (hk.compute_posterior prior ((indicesBack nl o X).map fun i => y.getD i 0) 0)
                  (some (hk.compute_posterior prior ((indicesBack nl o X).map fun i => y.getD i 0) 1))
                  none none none none none))
            (some
              (if 1 < (indicesFront nl o X).length then
                fitNode hk opt (level + 1)
                  (hk.compute_posterior prior ((indicesFront nl o X).map fun i => y.getD i 0) 0)
                  ((indicesFront nl o X).map (rowOf X))
                  ((indicesFront nl o X).map fun i => y.getD i 0)
              else
                Node.mk (level + 1)
                  (hk.compute_posterior prior ((indicesFront nl o X).map fun i => y.getD i 0) 0)
                  (some (hk.compute_posterior prior ((indicesFront nl o X).map fun i => y.getD i 0) 1))
                  none none none none none))
        else
          Node.mk level prior (some (hk.compute_posterior prior y 1)) (some (ncols X))
            none none none none
termination_by level prior X y => X.length
decreasing_by
  all_goals
    have hsum : (indicesBack nl o X).length + (indicesFront nl o X).length
        = X.length := by
      have h := List.length_eq_length_filter_add
        (l := List.range X.length) (fun i => decide (signedDist nl o (rowOf X i) < 0))
      simp only [List.length_range] at h
      rw [indicesBack, indicesFront]
      conv_rhs => rw [h]
      simp only [decide_not]
  · simp only [List.length_map]
    have h2 : 0 < (indicesFront nl o X).length := List.length_pos.mpr _h.2
    omega
  · simp only [List.length_map]
    have h1 : 0 < (indicesBack nl o X).length := List.length_pos.mpr _h.1
    omega

/-- Embedding of `_compute_child1_and_child2_indices` on a fitted internal
node: signed distance of each row of (new) `X` to the stored hyperplane,
negative indices routed to `child1`, non-negative to `child2`. -/
def computeChild1AndChild2Indices (t : Node P) (X : List (List ℚ)) :
    List ℕ × List ℕ :=
  (indicesBack (t.normal.getD []) (t.origin.getD []) X,
   indicesFront (t.normal.getD []) (t.origin.getD []) X)

/-- The two `ValueError`s that the prediction entry points can raise:
`'Cannot predict on an untrained model; call .fit() first'` and
`'Bad input dimensions: Expected {}, got {}'` (which names the expected and
the actual dimension). -/
inductive PredictError where
  | notFitted
  | badDimensions (expected : Option ℕ) (got : ℕ)
deriving DecidableEq

/-- Embedding of `BaseNode._ensure_is_fitted(X)`: raise if `posterior is None`;
when data is passed, also raise if its column count differs from the fitted
`n_dim` (in Python `X.shape[1] != self.n_dim`, which also fires when `n_dim`
is still `None`). -/
def ensureIsFitted (t : Node P) (X : Option (List (List ℚ))) :
    Except PredictError Unit :=
  if t.posterior.isNone then .error .notFitted
  else
    match X with
    | some X =>
        if some (ncols X) ≠ t.n_dim then .error (.badDimensions t.n_dim (ncols X))
        else .ok ()
    | none => .ok ()

/-- Embedding of `BaseHyperplaneNode.is_leaf()`: first `_ensure_is_fitted()`
(which raises on an unfitted node), then report whether
`best_hyperplane_normal is None`. -/
def isLeafM (t : Node P) : Except PredictError Bool :=
  match ensureIsFitted t none with
  | .error e => .error e
  | .ok _ => .ok t.normal.isNone

/-- Value of `self._predict_leaf()` (the model hook applied to the stored
posterior); defaults to `0` when the posterior is absent, a state in which the
Python method is never successfully reached. -/
def leafValue (hk : Hooks P) (t : Node P) : ℚ :=
  match t.posterior with
  | some p => hk.predict_leaf p
  | none => 0

/-- Scatter assignment `predictions_merged[indices] = predictions`. -/
def scatter (base : List ℚ) : List ℕ → List ℚ → List ℚ
  | [], _ => base
  | _ :: _, [] => base
  | i :: is, v :: vs => scatter (base.set i v) is vs

/-- Embedding of `BaseNode._predict(X, predict_class=True)`: a leaf broadcasts
its prediction over all rows; an internal node partitions the incoming rows by
signed distance to the stored hyperplane, queries each child on its rows (a
child receiving zero rows contributes nothing) and scatters the results back
into a zero-initialised array of the original length. -/
def predictRec (hk : Hooks P) : Node P → List (List ℚ) → List ℚ
  | .mk l p post nd none org c1 c2, X =>
      List.replicate X.length (leafValue hk (Node.mk l p post nd none org c1 c2))
  | .mk _ _ _ _ (some nrm) org (some c1) (some c2), X =>
      scatter
        (scatter (List.replicate X.length 0)
          (indicesBack nrm (org.getD []) X)
          (predictRec hk c1 ((indicesBack nrm (org.getD []) X).map (rowOf X))))
        (indicesFront nrm (org.getD []) X)
        (predictRec hk c2 ((indicesFront nrm (org.getD []) X).map (rowOf X)))
  | .mk _ _ _ _ (some _) _ _ _, X => List.replicate X.length 0

/-- Embedding of `BaseNode.predict(X)` on normalized input: `_ensure_is_fitted`
with the data, then the recursive routing (the cast of the single-leaf scalar
back to an array is subsumed by the list-valued `predictRec`). -/
def predict (hk : Hooks P) (t : Node P) (X : List (List ℚ)) :
    Except PredictError (List ℚ) :=
  match ensureIsFitted t (some X) with
  | .error e => .error e
  | .ok _ => .ok (predictRec hk t X)

/-- The leaf node that a single row is routed to by the stored hyperplanes
(specification-side description of the routing used to state row-order
preservation). -/
def routeLeaf : Node P → List ℚ → Node P
  | .mk l p post nd none org c1 c2, _ => .mk l p post nd none org c1 c2
  | .mk _ _ _ _ (some nrm) org (some c1) (some c2), row =>
      if signedDist nrm (org.getD []) row < 0 then routeLeaf c1 row
      else routeLeaf c2 row
  | .mk l p post nd nrm org c1 c2, _ => .mk l p post nd nrm org c1 c2

/-- Embedding of `BaseNode._update_depth_and_leaves(depth, leaves)`: a leaf
folds in its own level and adds one leaf; an internal node threads the
accumulators through `child1` and then `child2`; a node that is not a leaf but
has a missing child (a state `fit` never produces) contributes nothing. -/
def updateDepthAndLeaves : Node P → ℕ → ℕ → ℕ × ℕ
  | .mk level _ _ _ none _ _ _, depth, leaves => (max depth level, leaves + 1)
  | .mk _ _ _ _ (some _) _ (some c1) (some c2), depth, leaves =>
      updateDepthAndLeaves c2 (updateDepthAndLeaves c1 depth leaves).1
        (updateDepthAndLeaves c1 depth leaves).2
  | .mk _ _ _ _ (some _) _ _ _, depth, leaves => (depth, leaves)

/-- Embedding of `BaseNode.depth_and_leaves()`:
`self._update_depth_and_leaves(0, 0)`. -/
def depthAndLeaves (t : Node P) : ℕ × ℕ := updateDepthAndLeaves t 0 0

/-- Compositional form of `depth_and_leaves`, proved equal to the accumulator
embedding (`updateDepthAndLeaves_spec` below); its second component is the
leaf count, which visibly decreases at every collapse and therefore drives the
termination of the pruning re-run. -/
def dlC : Node P → ℕ × ℕ
  | .mk level _ _ _ none _ _ _ => (level, 1)
  | .mk _ _ _ _ (some _) _ (some c1) (some c2) =>
      (max (dlC c1).1 (dlC c2).1, (dlC c1).2 + (dlC c2).2)
  | .mk _ _ _ _ (some _) _ _ _ => (0, 0)

/-- Number of leaves below (and including) a node. -/
def leafCount (t : Node P) : ℕ := (dlC t).2

/-- Levels of the leaf nodes reachable from a node, in left-to-right order
(specification-side description used to state the depth/leaf accounting). -/
def leafLevels : Node P → List ℕ
  | .mk level _ _ _ none _ _ _ => [level]
  | .mk _ _ _ _ (some _) _ (some c1) (some c2) => leafLevels c1 ++ leafLevels c2
  | .mk _ _ _ _ (some _) _ _ _ => []

/-- Structural well-formedness of a fitted tree: at every node the split
representation (normal and origin) and the two children are stored together
(all present or all absent) and a posterior is stored. -/
def wf : Node P → Bool
  | .mk _ _ post _ none none none none => post.isSome
  | .mk _ _ post _ (some _) (some _) (some c1) (some c2) =>
      post.isSome && wf c1 && wf c2
  | .mk _ _ _ _ _ _ _ _ => false

/-- Modelled from the spec: the concrete Bayesian model families that supply
`_predict_leaf` are external collaborators (not in the core sources), and the
pruning contract assumes that whenever the two children of a node predict the
same value, the node itself (whose posterior was computed over the union of
the children's data) predicts that value as well.  This predicate states that
assumption over a fitted tree; pruning relies on it when it replaces an
uninformative split by the parent leaf. -/
def valCoherent (hk : Hooks P) : Node P → Bool
  | .mk l p post nd nrm org (some c1) (some c2) =>
      (decide (leafValue hk c1 = leafValue hk c2 →
        leafValue hk (Node.mk l p post nd nrm org (some c1) (some c2))
          = leafValue hk c1))
        && valCoherent hk c1 && valCoherent hk c2
  | .mk _ _ _ _ _ _ _ _ => true

/-- Embedding of `BaseHyperplaneNode._prune()`.  A leaf is returned unchanged.
When both children are leaves with the same `_predict_leaf()` value the node
collapses: children and split representation are discarded.  Otherwise both
children are pruned.  Finally, exactly as in the code, if `depth_and_leaves()`
changed anywhere below, pruning re-runs on this node.  The returned subtype
records that pruning either leaves the node unchanged or strictly decreases
its leaf count, which is what makes the re-run terminate.  A non-leaf node
with a missing child (on which the code would crash, and which `fit` never
produces) is returned unchanged. -/
def pruneAux (hk : Hooks P) :
    (t : Node P) → {r : Node P // r = t ∨ leafCount r < leafCount t}
  | .mk l p post nd none org c1 c2 =>
      ⟨.mk l p post nd none org c1 c2, Or.inl rfl⟩
  | .mk l p post nd (some nrm) org (some c1) (some c2) =>
      if hL : c1.normal.isNone ∧ c2.normal.isNone then
        if hv : leafValue hk c1 = leafValue hk c2 then
          if hg : dlC (Node.mk l p post nd none none none none (P := P))
              ≠ dlC (Node.mk l p post nd (some nrm) org (some c1) (some c2)) then
            let r := pruneAux hk (Node.mk l p post nd none none none none)
            ⟨r.val, by
              have hone : ∀ s : Node P, s.normal.isNone = true → leafCount s = 1 := by
                intro s hs
                rcases s with ⟨sl, sp, spost, snd, snrm, sorg, sc1, sc2⟩
                cases snrm with
                | none => rfl
                | some v => simp [Node.normal] at hs
              have e1 : leafCount (Node.mk l p post nd none none none none (P := P)) = 1 := rfl
              have e2 : leafCount (Node.mk l p post nd (some nrm) org (some c1) (some c2))
                  = leafCount c1 + leafCount c2 := rfl
              have e3 := hone c1 hL.1
              have e4 := hone c2 hL.2
              right
              rcases r.property with h | h
              · rw [h]; omega
              · omega⟩
          else
            ⟨Node.mk l p post nd none none none none, by
              have hone : ∀ s : Node P, s.normal.isNone = true → leafCount s = 1 := by
                intro s hs
                rcases s with ⟨sl, sp, spost, snd, snrm, sorg, sc1, sc2⟩
                cases snrm with
                | none => rfl
                | some v => simp [Node.normal] at hs
              have e1 : leafCount (Node.mk l p post nd none none none none (P := P)) = 1 := rfl
              have e2 : leafCount (Node.mk l p post nd (some nrm) org (some c1) (some c2))
                  = leafCount c1 + leafCount c2 := rfl
              have e3 := hone c1 hL.1
              have e4 := hone c2 hL.2
              right
              omega⟩
        else
          ⟨Node.mk l p post nd (some nrm) org (some c1) (some c2), Or.inl rfl⟩
      else
        let r1 := pruneAux hk c1
        let r2 := pruneAux hk c2
        if hg : dlC (Node.mk l p post nd (some nrm) org (some r1.val) (some r2.val))
            ≠ dlC (Node.mk l p post nd (some nrm) org (some c1) (some c2)) then
          let r := pruneAux hk (Node.mk l p post nd (some nrm) org
            (some r1.val) (some r2.val))
          ⟨r.val, by
            have e2 : leafCount (Node.mk l p post nd (some nrm) org (some c1) (some c2))
                = leafCount c1 + leafCount c2 := rfl
            have e5 : leafCount (Node.mk l p post nd (some nrm) org
                  (some r1.val) (some r2.val))
                = leafCount r1.val + leafCount r2.val := rfl
            have key : leafCount (Node.mk l p post nd (some nrm) org
                  (some r1.val) (some r2.val))
                < leafCount (Node.mk l p post nd (some nrm) org (some c1) (some c2)) := by
              rcases r1.property with h1 | h1
              · rcases r2.property with h2 | h2
                · exact absurd (by rw [h1, h2]) hg
                · rw [e5, e2, h1]; omega
              · rcases r2.property with h2 | h2
                · rw [e5, e2, h2]; omega
                · rw [e5, e2]; omega
            right
            rcases r.property with h | h
            · rw [h]; exact key
            · omega⟩
        else
          ⟨Node.mk l p post nd (some nrm) org (some r1.val) (some r2.val), by
            have e2 : leafCount (Node.mk l p post nd (some nrm) org (some c1) (some c2))
                = leafCount c1 + leafCount c2 := rfl
            have e5 : leafCount (Node.mk l p post nd (some nrm) org
                  (some r1.val) (some r2.val))
                = leafCount r1.val + leafCount r2.val := rfl
            rcases r1.property with h1 | h1
            · rcases r2.property with h2 | h2
              · left; rw [h1, h2]
              · right; rw [e5, e2, h1]; omega
            · rcases r2.property with h2 | h2
              · right; rw [e5, e2, h2]; omega
              · right; rw [e5, e2]; omega⟩
  | .mk l p post nd (some nrm) org none c2 =>
      ⟨.mk l p post nd (some nrm) org none c2, Or.inl rfl⟩
  | .mk l p post nd (some nrm) org (some c1) none =>
      ⟨.mk l p post nd (some nrm) org (some c1) none, Or.inl rfl⟩
termination_by t => (leafCount t, Node.size t)
decreasing_by
  · apply Prod.Lex.left
    have hone : ∀ s : Node P, s.normal.isNone = true → leafCount s = 1 := by
      intro s hs
      rcases s with ⟨sl, sp, spost, snd, snrm, sorg, sc1, sc2⟩
      cases snrm with
      | none => rfl
      | some v => simp [Node.normal] at hs
    have e1 : leafCount (Node.mk l p post nd none none none none (P := P)) = 1 := rfl
    have e2 : leafCount (Node.mk l p post nd (some nrm) org (some c1) (some c2))
        = leafCount c1 + leafCount c2 := rfl
    have e3 := hone c1 hL.1
    have e4 := hone c2 hL.2
    omega
  · have e2 : leafCount (Node.mk l p post nd (some nrm) org (some c1) (some c2))
        = leafCount c1 + leafCount c2 := rfl
    have es : c1.size < (Node.mk l p post nd (some nrm) org (some c1) (some c2)).size := by
      show c1.size < 1 + c1.size + c2.size
      omega
    rcases Nat.lt_or_ge (leafCount c1)
        (leafCount (Node.mk l p post nd (some nrm) org (some c1) (some c2))) with h | h
    · exact Prod.Lex.left _ _ h
    · have heq : leafCount c1
          = leafCount (Node.mk l p post nd (some nrm) org (some c1) (some c2)) := by omega
      rw [heq]
      exact Prod.Lex.right _ es
  · have e2 : leafCount (Node.mk l p post nd (some nrm) org (some c1) (some c2))
        = leafCount c1 + leafCount c2 := rfl
    have es : c2.size < (Node.mk l p post nd (some nrm) org (some c1) (some c2)).size := by
      show c2.size < 1 + c1.size + c2.size
      omega
    rcases Nat.lt_or_ge (leafCount c2)
        (leafCount (Node.mk l p post nd (some nrm) org (some c1) (some c2))) with h | h
    · exact Prod.Lex.left _ _ h
    · have heq : leafCount c2
          = leafCount (Node.mk l p post nd (some nrm) org (some c1) (some c2)) := by omega
      rw [heq]
      exact Prod.Lex.right _ es
  · apply Prod.Lex.left
    show leafCount (Node.mk l p post nd (some nrm) org (some r1.val) (some r2.val))
        < leafCount (Node.mk l p post nd (some nrm) org (some c1) (some c2))
    have hg2 : dlC (Node.mk l p post nd (some nrm) org (some r1.val) (some r2.val))
        ≠ dlC (Node.mk l p post nd (some nrm) org (some c1) (some c2)) := hg
    have e2 : leafCount (Node.mk l p post nd (some nrm) org (some c1) (some c2))
        = leafCount c1 + leafCount c2 := rfl
    have e5 : leafCount (Node.mk l p post nd (some nrm) org (some r1.val) (some r2.val))
        = leafCount r1.val + leafCount r2.val := rfl
    rcases r1.property with h1 | h1
    · rcases r2.property with h2 | h2
      · exact absurd (by rw [h1, h2]) hg2
      · have h1l : leafCount r1.val = leafCount c1 := by rw [h1]
        omega
    · rcases r2.property with h2 | h2
      · have h2l : leafCount r2.val = leafCount c2 := by rw [h2]
        omega
      · omega

/-- Pruned tree: the value component of `pruneAux`. -/
def prune (hk : Hooks P) (t : Node P) : Node P := (pruneAux hk t).val

/-- Trees on which pruning is a no-op: no internal node has two leaf children
with the same prediction, recursively.  `prune` always lands in this set and
is the identity on it, which is the fixpoint property of pruning. -/
def pruneStable (hk : Hooks P) : Node P → Prop
  | .mk _ _ _ _ none _ _ _ => True
  | .mk _ _ _ _ (some _) _ (some c1) (some c2) =>
      pruneStable hk c1 ∧ pruneStable hk c2 ∧
      ¬ (c1.normal.isNone = true ∧ c2.normal.isNone = true
          ∧ leafValue hk c1 = leafValue hk c2)
  | .mk _ _ _ _ (some _) _ _ _ => True

/-- Concrete model hooks (over `P := ℚ`) used in the closed evaluation
theorems: the posterior sums prior, data and strengthening; the leaf
prediction is the posterior itself. -/
def hooksW : Hooks ℚ where
  compute_posterior := fun p y d => p + y.sum + d
  predict_leaf := fun p => p

/-- A concrete optimizer that always proposes normal `[1]` and origin `[10]`,
which puts every row of a small data set on the back side. -/
def optW1 : Optimizer := fun _ _ => some ([1], [10])

/-- A concrete optimizer that always proposes normal `[1]` and origin `[1]`. -/
def optW2 : Optimizer := fun _ _ => some ([1], [1])

/-- A fitted leaf used in closed evaluation theorems. -/
def leafW : Node ℚ := Node.mk 1 0 (some 5) none none none none none

/-- A fitted internal node over two equal-valued leaves, used in closed
evaluation theorems. -/
def rootW : Node ℚ :=
  Node.mk 0 0 (some 5) (some 1) (some [1]) (some [0]) (some leafW) (some leafW)

/-- An unfitted node (no posterior), used in closed evaluation theorems. -/
def unfitW : Node ℚ := Node.mk 0 0 none none none none none none

end BDT

namespace BDT

section Theorems

variable {P : Type}

theorem mem_indicesBack {nl o : List ℚ} {X : List (List ℚ)} {i : ℕ} :
    i ∈ indicesBack nl o X ↔ i < X.length ∧ signedDist nl o (rowOf X i) < 0 := by
  simp [indicesBack, List.mem_filter, List.mem_range]

theorem mem_indicesFront {nl o : List ℚ} {X : List (List ℚ)} {i : ℕ} :
    i ∈ indicesFront nl o X ↔ i < X.length ∧ 0 ≤ signedDist nl o (rowOf X i) := by
  simp [indicesFront, List.mem_filter, List.mem_range, not_lt]

/-- C2: for every node and every incoming data row, membership of the row
index in the two index sets computed from the stored hyperplane is decided by
the sign of the signed distance (negative: child1, non-negative: child2), and
the two index sets are disjoint and together cover exactly the row indices of
the input. -/
theorem child_partition_disjoint_exhaustive (t : Node P) (X : List (List ℚ)) (i : ℕ) :
    (i ∈ (computeChild1AndChild2Indices t X).1 ↔
      i < X.length ∧ signedDist (t.normal.getD []) (t.origin.getD []) (rowOf X i) < 0) ∧
    (i ∈ (computeChild1AndChild2Indices t X).2 ↔
      i < X.length ∧ 0 ≤ signedDist (t.normal.getD []) (t.origin.getD []) (rowOf X i)) ∧
    ¬ (i ∈ (computeChild1AndChild2Indices t X).1 ∧
        i ∈ (computeChild1AndChild2Indices t X).2) ∧
    (i ∈ (computeChild1AndChild2Indices t X).1 ∨
        i ∈ (computeChild1AndChild2Indices t X).2 ↔ i < X.length) := by
  refine ⟨mem_indicesBack, mem_indicesFront, ?_, ?_⟩
  · rintro ⟨h1, h2⟩
    have d1 := (mem_indicesBack.mp h1).2
    have d2 := (mem_indicesFront.mp h2).2
    exact absurd d1 (not_lt.mpr d2)
  · constructor
    · rintro (h | h)
      · exact (mem_indicesBack.mp h).1
      · exact (mem_indicesFront.mp h).1
    · intro hi
      rcases lt_or_le (signedDist (t.normal.getD []) (t.origin.getD []) (rowOf X i)) 0
        with hd | hd
      · exact Or.inl (mem_indicesBack.mpr ⟨hi, hd⟩)
      · exact Or.inr (mem_indicesFront.mpr ⟨hi, hd⟩)

/-- C10: calling `is_leaf()` on a node that was never fitted raises the
untrained-model `ValueError` (instead of reporting the node as a leaf), and
this happens exactly when the posterior is absent. -/
theorem is_leaf_unfitted_raises (t : Node P) :
    isLeafM t = .error .notFitted ↔ t.posterior = none := by
  unfold isLeafM ensureIsFitted
  rcases ht : t.posterior with _ | p <;> simp [ht]

/-- C9: `predict` raises the untrained-model `ValueError` exactly when no
posterior is stored; it raises the dimension `ValueError` (naming the expected
`n_dim` and the actual column count) exactly when the node is fitted but the
normalized input's column count differs from `n_dim`; and it succeeds exactly
when neither condition holds.  The embedding is a pure function of the node,
so the node state is unchanged in every case. -/
theorem predict_error_conditions (hk : Hooks P) (t : Node P) (X : List (List ℚ)) :
    (predict hk t X = .error .notFitted ↔ t.posterior = none) ∧
    (predict hk t X = .error (.badDimensions t.n_dim (ncols X)) ↔
      t.posterior ≠ none ∧ some (ncols X) ≠ t.n_dim) ∧
    ((∃ r, predict hk t X = .ok r) ↔ t.posterior ≠ none ∧ some (ncols X) = t.n_dim) := by
  unfold predict ensureIsFitted
  rcases ht : t.posterior with _ | p
  · simp [ht]
  · by_cases hd : some (ncols X) = t.n_dim
    · simp [ht, hd]
    · simp [ht, hd]

theorem indices_length_sum (nl o : List ℚ) (X : List (List ℚ)) :
    (indicesBack nl o X).length + (indicesFront nl o X).length = X.length := by
  have h := List.length_eq_length_filter_add
    (l := List.range X.length) (fun i => decide (signedDist nl o (rowOf X i) < 0))
  simp only [List.length_range] at h
  rw [indicesBack, indicesFront]
  conv_rhs => rw [h]
  simp only [decide_not]

theorem fitNode_none (hk : Hooks P) (opt : Optimizer)
    (level : ℕ) (prior : P) (X : List (List ℚ)) (y : List ℚ)
    (hopt : opt X y = none) :
    fitNode hk opt level prior X y
      = Node.mk level prior (some (hk.compute_posterior prior y 1)) (some (ncols X))
          none none none none := by
  rw [fitNode, hopt]

theorem fitNode_degenerate (hk : Hooks P) (opt : Optimizer)
    (level : ℕ) (prior : P) (X : List (List ℚ)) (y : List ℚ) (nl o : List ℚ)
    (hopt : opt X y = some (nl, o))
    (hcond : ¬ (indicesBack nl o X ≠ [] ∧ indicesFront nl o X ≠ [])) :
    fitNode hk opt level prior X y
      = Node.mk level prior (some (hk.compute_posterior prior y 1)) (some (ncols X))
          none none none none := by
  rw [fitNode, hopt]
  exact dif_neg hcond

/-- C1: if the optimizer returns a best hyperplane but partitioning the
training data by signed distance leaves one side empty, the node stores no
split representation and creates no children; it remains a leaf whose
posterior and dimensionality are still computed normally (no error). -/
theorem fit_rejects_empty_partition (hk : Hooks P) (opt : Optimizer)
    (level : ℕ) (prior : P) (X : List (List ℚ)) (y : List ℚ) (nl o : List ℚ)
    (hopt : opt X y = some (nl, o))
    (hemp : indicesBack nl o X = [] ∨ indicesFront nl o X = []) :
    fitNode hk opt level prior X y
      = Node.mk level prior (some (hk.compute_posterior prior y 1)) (some (ncols X))
          none none none none :=
  fitNode_degenerate hk opt level prior X y nl o hopt (by tauto)

/-- C1 witness: a concrete optimizer output that puts both rows on the back
side; fit keeps the node a leaf with its posterior stored. -/
theorem fit_rejects_empty_partition_witness :
    indicesFront [1] [10] [[0], [1]] = [] ∧
    fitNode hooksW optW1 0 0 [[0], [1]] [0, 1]
      = Node.mk 0 0 (some (hooksW.compute_posterior 0 [0, 1] 1)) (some 1)
          none none none none :=
  ⟨by norm_num [indicesFront, signedDist, dot, rowOf, List.range_succ],
   fit_rejects_empty_partition hooksW optW1 0 0 [[0], [1]] [0, 1] [1] [10] rfl
    (Or.inr (by norm_num [indicesFront, signedDist, dot, rowOf, List.range_succ]))⟩

/-- Unfolding of `fitNode` when the optimizer found a hyperplane and both
partitions are non-empty. -/
theorem fitNode_found_nonempty (hk : Hooks P) (opt : Optimizer)
    (level : ℕ) (prior : P) (X : List (List ℚ)) (y : List ℚ) (nl o : List ℚ)
    (hopt : opt X y = some (nl, o))
    (hne : indicesBack nl o X ≠ [] ∧ indicesFront nl o X ≠ []) :
    fitNode hk opt level prior X y
      = Node.mk level prior (some (hk.compute_posterior prior y 1)) (some (ncols X))
          (some nl) (some o)
          (some
            (if 1 < (indicesBack nl o X).length then
              fitNode hk opt (level + 1)
                (hk.compute_posterior prior ((indicesBack nl o X).map fun i => y.getD i 0) 0)
                ((indicesBack nl o X).map (rowOf X))
                ((indicesBack nl o X).map fun i => y.getD i 0)
            else
              Node.mk (level + 1)
                (hk.compute_posterior prior ((indicesBack nl o X).map fun i => y.getD i 0) 0)
                (some (hk.compute_posterior prior
                  ((indicesBack nl o X).map fun i => y.getD i 0) 1))
                none none none none none))
          (some
            (if 1 < (indicesFront nl o X).length then
              fitNode hk opt (level + 1)
                (hk.compute_posterior prior ((indicesFront nl o X).map fun i => y.getD i 0) 0)
                ((indicesFront nl o X).map (rowOf X))
                ((indicesFront nl o X).map fun i => y.getD i 0)
            else
              Node.mk (level + 1)
                (hk.compute_posterior prior ((indicesFront nl o X).map fun i => y.getD i 0) 0)
                (some (hk.compute_posterior prior
                  ((indicesFront nl o X).map fun i => y.getD i 0) 1))
                none none none none none)) := by
  rw [fitNode, hopt]
  exact dif_pos hne

/-- C8: whenever a stored split produces a partition with exactly one sample,
the corresponding child's posterior is set directly from that single sample's
data (by the parent's posterior hook) without recursing, so the child has no
children and no split of its own. -/
theorem single_sample_child_no_recursion (hk : Hooks P) (opt : Optimizer)
    (level : ℕ) (prior : P) (X : List (List ℚ)) (y : List ℚ) (nl o : List ℚ)
    (hopt : opt X y = some (nl, o))
    (h1 : indicesBack nl o X ≠ []) (h2 : indicesFront nl o X ≠ []) :
    ((indicesBack nl o X).length = 1 →
      (fitNode hk opt level prior X y).child1
        = some (Node.mk (level + 1)
            (hk.compute_posterior prior ((indicesBack nl o X).map fun i => y.getD i 0) 0)
            (some (hk.compute_posterior prior
              ((indicesBack nl o X).map fun i => y.getD i 0) 1))
            none none none none none)) ∧
    ((indicesFront nl o X).length = 1 →
      (fitNode hk opt level prior X y).child2
        = some (Node.mk (level + 1)
            (hk.compute_posterior prior ((indicesFront nl o X).map fun i => y.getD i 0) 0)
            (some (hk.compute_posterior prior
              ((indicesFront nl o X).map fun i => y.getD i 0) 1))
            none none none none none)) := by
  constructor
  · intro hlen
    rw [fitNode_found_nonempty hk opt level prior X y nl o hopt ⟨h1, h2⟩]
    simp only [Node.child1]
    rw [if_neg (by omega)]
  · intro hlen
    rw [fitNode_found_nonempty hk opt level prior X y nl o hopt ⟨h1, h2⟩]
    simp only [Node.child2]
    rw [if_neg (by omega)]

/-- C8 witness: with a concrete optimizer the back partition has exactly one
sample; the child1 produced by fit is a leaf with the directly-set posterior
and no children. -/
theorem single_sample_child_no_recursion_witness :
    (indicesBack [1] [1] [[0], [5], [6]]).length = 1 ∧
    (fitNode hooksW optW2 0 0 [[0], [5], [6]] [0, 1, 1]).child1
      = some (Node.mk 1
          (hooksW.compute_posterior 0
            ((indicesBack [1] [1] [[0], [5], [6]]).map fun i => [0, 1, 1].getD i 0) 0)
          (some (hooksW.compute_posterior 0
            ((indicesBack [1] [1] [[0], [5], [6]]).map fun i => [0, 1, 1].getD i 0) 1))
          none none none none none) :=
  ⟨by norm_num [indicesBack, signedDist, dot, rowOf, List.range_succ],
   (single_sample_child_no_recursion hooksW optW2 0 0 [[0], [5], [6]] [0, 1, 1]
      [1] [1] rfl
      (by norm_num [indicesBack, signedDist, dot, rowOf, List.range_succ])
      (by
        norm_num [indicesFront, signedDist, dot, rowOf, List.range_succ]
        decide)).1
      (by norm_num [indicesBack, signedDist, dot, rowOf, List.range_succ])⟩

theorem size_child_lt (s : Node P) (l : ℕ) (p : P) (post : Option P)
    (nd : Option ℕ) (nrm org : Option (List ℚ)) (c1 c2 : Option (Node P))
    (h : c1 = some s ∨ c2 = some s) :
    s.size < (Node.mk l p post nd nrm org c1 c2).size := by
  rcases h with h | h <;> subst h
  · rcases c2 with _ | s2 <;> simp [Node.size] <;> omega
  · rcases c1 with _ | s1 <;> simp [Node.size] <;> omega

theorem node_structural_induction (Q : Node P → Prop)
    (step : ∀ l p post nd nrm org c1 c2,
      (∀ s, c1 = some s → Q s) → (∀ s, c2 = some s → Q s) →
      Q (Node.mk l p post nd nrm org c1 c2)) :
    ∀ t, Q t := by
  have key : ∀ (n : ℕ) (t : Node P), t.size < n → Q t := by
    intro n
    induction n with
    | zero => intro t h; omega
    | succ n ih =>
      intro t h
      rcases t with ⟨l, p, post, nd, nrm, org, c1, c2⟩
      apply step
      · intro s hs
        have := size_child_lt s l p post nd nrm org c1 c2 (Or.inl hs)
        exact ih s (by omega)
      · intro s hs
        have := size_child_lt s l p post nd nrm org c1 c2 (Or.inr hs)
        exact ih s (by omega)
  intro t
  exact key (t.size + 1) t (by omega)

theorem node_measure_induction (Q : Node P → Prop)
    (step : ∀ t, (∀ s, leafCount s < leafCount t → Q s)
        → (∀ s, leafCount s ≤ leafCount t → Node.size s < Node.size t → Q s)
        → Q t) :
    ∀ t, Q t := by
  have key : ∀ (fl fs : ℕ) (t : Node P), leafCount t < fl → Node.size t < fs → Q t := by
    intro fl
    induction fl with
    | zero => intro fs t h1 h2; omega
    | succ fl ihL =>
      intro fs
      induction fs with
      | zero => intro t h1 h2; omega
      | succ fs ihS =>
        intro t h1 h2
        apply step
        · intro s hs
          exact ihL (s.size + 1) s (by omega) (by omega)
        · intro s hs1 hs2
          exact ihS s (by omega) (by omega)
  intro t
  exact key (leafCount t + 1) (t.size + 1) t (by omega) (by omega)

theorem updateDepthAndLeaves_eq (t : Node P) :
    ∀ depth leaves : ℕ, updateDepthAndLeaves t depth leaves
      = (max depth (dlC t).1, leaves + (dlC t).2) := by
  induction t using node_structural_induction with
  | step l p post nd nrm org c1 c2 ih1 ih2 =>
    intro depth leaves
    rcases nrm with _ | nv
    · simp [updateDepthAndLeaves, dlC]
    · rcases c1 with _ | s1
      · simp [updateDepthAndLeaves, dlC]
      · rcases c2 with _ | s2
        · simp [updateDepthAndLeaves, dlC]
        · have h1 := ih1 s1 rfl
          have h2 := ih2 s2 rfl
          simp only [updateDepthAndLeaves, dlC, h1, h2, Prod.mk.injEq]
          omega

theorem depthAndLeaves_eq_dlC (t : Node P) : depthAndLeaves t = dlC t := by
  rw [depthAndLeaves, updateDepthAndLeaves_eq]
  rcases hd : dlC t with ⟨a, b⟩
  simp only [Prod.mk.injEq]
  omega

theorem foldr_max_init (l : List ℕ) (b : ℕ) :
    l.foldr max b = max (l.foldr max 0) b := by
  induction l with
  | nil => simp
  | cons a l ih => simp only [List.foldr_cons, ih]; omega

theorem wf_mk_iff (l : ℕ) (p : P) (post : Option P) (nd : Option ℕ)
    (nrm org : Option (List ℚ)) (c1 c2 : Option (Node P)) :
    wf (Node.mk l p post nd nrm org c1 c2) = true ↔
      ((nrm = none ∧ org = none ∧ c1 = none ∧ c2 = none ∧ post.isSome = true) ∨
       (∃ nv ov s1 s2, nrm = some nv ∧ org = some ov ∧ c1 = some s1 ∧ c2 = some s2
          ∧ post.isSome = true ∧ wf s1 = true ∧ wf s2 = true)) := by
  rcases nrm with _ | nv <;> rcases org with _ | ov <;>
    rcases c1 with _ | s1 <;> rcases c2 with _ | s2 <;>
    simp [wf, Bool.and_eq_true, and_assoc]

theorem dlC_eq_leafLevels (t : Node P) (h : wf t = true) :
    dlC t = ((leafLevels t).foldr max 0, (leafLevels t).length) := by
  induction t using node_structural_induction with
  | step l p post nd nrm org c1 c2 ih1 ih2 =>
    rcases (wf_mk_iff l p post nd nrm org c1 c2).mp h with
      ⟨h1, h2, h3, h4, h5⟩ | ⟨nv, ov, s1, s2, h1, h2, h3, h4, h5, hw1, hw2⟩
    · subst h1; subst h2; subst h3; subst h4
      simp [dlC, leafLevels]
    · subst h1; subst h2; subst h3; subst h4
      have e1 := ih1 s1 rfl hw1
      have e2 := ih2 s2 rfl hw2
      simp only [dlC, leafLevels, e1, e2, List.foldr_append, List.length_append]
      rw [foldr_max_init (leafLevels s1) (List.foldr max 0 (leafLevels s2))]

/-- C7: on a fitted (well-formed) tree, `depth_and_leaves()` returns exactly
(maximum level among reachable leaves, number of reachable leaves); a leaf
contributes its own level and a count of one, and an internal node folds its
children's results with max and sum. -/
theorem depth_and_leaves_accounting (t : Node P) (h : wf t = true) :
    depthAndLeaves t = ((leafLevels t).foldr max 0, (leafLevels t).length) := by
  rw [depthAndLeaves_eq_dlC]
  exact dlC_eq_leafLevels t h

/-- C7 witness: evaluation on a concrete two-leaf tree. -/
theorem depth_and_leaves_accounting_witness :
    wf rootW = true ∧
    depthAndLeaves rootW = ((leafLevels rootW).foldr max 0, (leafLevels rootW).length) :=
  ⟨by decide, depth_and_leaves_accounting rootW (by decide)⟩

theorem wf_leaf_mk (level : ℕ) (prior : P) (q : P) (nd : Option ℕ) :
    wf (Node.mk level prior (some q) nd none none none none) = true := by
  simp [wf]

theorem wf_fitNode_aux (hk : Hooks P) (opt : Optimizer) :
    ∀ (n level : ℕ) (prior : P) (X : List (List ℚ)) (y : List ℚ), X.length < n →
      wf (fitNode hk opt level prior X y) = true := by
  intro n
  induction n with
  | zero => intro level prior X y h; omega
  | succ n ih =>
    intro level prior X y h
    rcases hopt : opt X y with _ | ⟨nl, o⟩
    · rw [fitNode_none hk opt level prior X y hopt]
      exact wf_leaf_mk level prior _ _
    · by_cases hne : indicesBack nl o X ≠ [] ∧ indicesFront nl o X ≠ []
      · rw [fitNode_found_nonempty hk opt level prior X y nl o hopt hne]
        have hsum := indices_length_sum nl o X
        have hb1 : 0 < (indicesBack nl o X).length := List.length_pos.mpr hne.1
        have hb2 : 0 < (indicesFront nl o X).length := List.length_pos.mpr hne.2
        rw [wf_mk_iff]
        refine Or.inr ⟨nl, o, _, _, rfl, rfl, rfl, rfl, rfl, ?_, ?_⟩
        · by_cases hlen : 1 < (indicesBack nl o X).length
          · rw [if_pos hlen]
            apply ih
            simp only [List.length_map]
            omega
          · rw [if_neg hlen]
            exact wf_leaf_mk _ _ _ _
        · by_cases hlen : 1 < (indicesFront nl o X).length
          · rw [if_pos hlen]
            apply ih
            simp only [List.length_map]
            omega
          · rw [if_neg hlen]
            exact wf_leaf_mk _ _ _ _
      · rw [fitNode_degenerate hk opt level prior X y nl o hopt hne]
        exact wf_leaf_mk level prior _ _

theorem wf_fitNode (hk : Hooks P) (opt : Optimizer) (level : ℕ) (prior : P)
    (X : List (List ℚ)) (y : List ℚ) :
    wf (fitNode hk opt level prior X y) = true :=
  wf_fitNode_aux hk opt (X.length + 1) level prior X y (by omega)

theorem leafCount_of_isNone {t : Node P} (h : t.normal.isNone = true) :
    leafCount t = 1 := by
  rcases t with ⟨l, p, post, nd, nrm, org, c1, c2⟩
  cases nrm with
  | none => rfl
  | some v => simp [Node.normal] at h

theorem prune_leaf (hk : Hooks P) (l : ℕ) (p : P) (post : Option P) (nd : Option ℕ)
    (org : Option (List ℚ)) (c1 c2 : Option (Node P)) :
    prune hk (Node.mk l p post nd none org c1 c2)
      = Node.mk l p post nd none org c1 c2 := by
  rw [prune, pruneAux]

theorem prune_no_child1 (hk : Hooks P) (l : ℕ) (p : P) (post : Option P)
    (nd : Option ℕ) (nrm : List ℚ) (org : Option (List ℚ)) (c2 : Option (Node P)) :
    prune hk (Node.mk l p post nd (some nrm) org none c2)
      = Node.mk l p post nd (some nrm) org none c2 := by
  rw [prune, pruneAux]

theorem prune_no_child2 (hk : Hooks P) (l : ℕ) (p : P) (post : Option P)
    (nd : Option ℕ) (nrm : List ℚ) (org : Option (List ℚ)) (c1 : Node P) :
    prune hk (Node.mk l p post nd (some nrm) org (some c1) none)
      = Node.mk l p post nd (some nrm) org (some c1) none := by
  rw [prune, pruneAux]

theorem prune_collapse (hk : Hooks P) (l : ℕ) (p : P) (post : Option P)
    (nd : Option ℕ) (nrm : List ℚ) (org : Option (List ℚ)) (c1 c2 : Node P)
    (h1 : c1.normal.isNone = true) (h2 : c2.normal.isNone = true)
    (hv : leafValue hk c1 = leafValue hk c2) :
    prune hk (Node.mk l p post nd (some nrm) org (some c1) (some c2))
      = Node.mk l p post nd none none none none := by
  rw [prune, pruneAux, dif_pos ⟨h1, h2⟩, dif_pos hv]
  split
  · exact prune_leaf hk l p post nd none none none
  · rfl

theorem prune_leaves_ne (hk : Hooks P) (l : ℕ) (p : P) (post : Option P)
    (nd : Option ℕ) (nrm : List ℚ) (org : Option (List ℚ)) (c1 c2 : Node P)
    (h1 : c1.normal.isNone = true) (h2 : c2.normal.isNone = true)
    (hv : ¬ leafValue hk c1 = leafValue hk c2) :
    prune hk (Node.mk l p post nd (some nrm) org (some c1) (some c2))
      = Node.mk l p post nd (some nrm) org (some c1) (some c2) := by
  rw [prune, pruneAux, dif_pos ⟨h1, h2⟩, dif_neg hv]

theorem prune_internal_changed (hk : Hooks P) (l : ℕ) (p : P) (post : Option P)
    (nd : Option ℕ) (nrm : List ℚ) (org : Option (List ℚ)) (c1 c2 : Node P)
    (hnb : ¬ (c1.normal.isNone = true ∧ c2.normal.isNone = true))
    (hg : dlC (Node.mk l p post nd (some nrm) org
          (some (prune hk c1)) (some (prune hk c2)))
        ≠ dlC (Node.mk l p post nd (some nrm) org (some c1) (some c2))) :
    prune hk (Node.mk l p post nd (some nrm) org (some c1) (some c2))
      = prune hk (Node.mk l p post nd (some nrm) org
          (some (prune hk c1)) (some (prune hk c2))) := by
  rw [prune, pruneAux, dif_neg hnb]
  dsimp only
  split
  · rfl
  · next hng => exact absurd hg hng

theorem prune_internal_unchanged (hk : Hooks P) (l : ℕ) (p : P) (post : Option P)
    (nd : Option ℕ) (nrm : List ℚ) (org : Option (List ℚ)) (c1 c2 : Node P)
    (hnb : ¬ (c1.normal.isNone = true ∧ c2.normal.isNone = true))
    (hg : ¬ dlC (Node.mk l p post nd (some nrm) org
          (some (prune hk c1)) (some (prune hk c2)))
        ≠ dlC (Node.mk l p post nd (some nrm) org (some c1) (some c2))) :
    prune hk (Node.mk l p post nd (some nrm) org (some c1) (some c2))
      = Node.mk l p post nd (some nrm) org
          (some (prune hk c1)) (some (prune hk c2)) := by
  rw [prune, pruneAux, dif_neg hnb]
  dsimp only
  split
  · next hgg => exact absurd hgg hg
  · rfl

theorem prune_eq_or_lt (hk : Hooks P) (t : Node P) :
    prune hk t = t ∨ leafCount (prune hk t) < leafCount t :=
  (pruneAux hk t).property

theorem wf_prune (hk : Hooks P) : ∀ t : Node P, wf t = true → wf (prune hk t) = true := by
  apply node_measure_induction (fun t => wf t = true → wf (prune hk t) = true)
  intro t ihL ihS hw
  rcases t with ⟨l, p, post, nd, nrm, org, c1, c2⟩
  rcases (wf_mk_iff l p post nd nrm org c1 c2).mp hw with
    ⟨e1, e2, e3, e4, e5⟩ | ⟨nv, ov, s1, s2, e1, e2, e3, e4, e5, hw1, hw2⟩
  · subst e1; subst e2; subst e3; subst e4
    rw [prune_leaf]
    exact hw
  · subst e1; subst e2; subst e3; subst e4
    by_cases hb : s1.normal.isNone = true ∧ s2.normal.isNone = true
    · by_cases hv : leafValue hk s1 = leafValue hk s2
      · rw [prune_collapse hk l p post nd nv (some ov) s1 s2 hb.1 hb.2 hv]
        rw [wf_mk_iff]
        exact Or.inl ⟨rfl, rfl, rfl, rfl, e5⟩
      · rw [prune_leaves_ne hk l p post nd nv (some ov) s1 s2 hb.1 hb.2 hv]
        exact hw
    · have hlc : leafCount (Node.mk l p post nd (some nv) (some ov) (some s1) (some s2))
          = leafCount s1 + leafCount s2 := rfl
      have hsz1 := size_child_lt s1 l p post nd (some nv) (some ov) (some s1) (some s2)
        (Or.inl rfl)
      have hsz2 := size_child_lt s2 l p post nd (some nv) (some ov) (some s1) (some s2)
        (Or.inr rfl)
      have hp1 : wf (prune hk s1) = true := ihS s1 (by omega) hsz1 hw1
      have hp2 : wf (prune hk s2) = true := ihS s2 (by omega) hsz2 hw2
      by_cases hg : dlC (Node.mk l p post nd (some nv) (some ov)
            (some (prune hk s1)) (some (prune hk s2)))
          ≠ dlC (Node.mk l p post nd (some nv) (some ov) (some s1) (some s2))
      · rw [prune_internal_changed hk l p post nd nv (some ov) s1 s2 hb hg]
        have hwn : wf (Node.mk l p post nd (some nv) (some ov)
            (some (prune hk s1)) (some (prune hk s2))) = true := by
          rw [wf_mk_iff]
          exact Or.inr ⟨nv, ov, _, _, rfl, rfl, rfl, rfl, e5, hp1, hp2⟩
        have hlc2 : leafCount (Node.mk l p post nd (some nv) (some ov)
              (some (prune hk s1)) (some (prune hk s2)))
            = leafCount (prune hk s1) + leafCount (prune hk s2) := rfl
        have hlt : leafCount (Node.mk l p post nd (some nv) (some ov)
              (some (prune hk s1)) (some (prune hk s2)))
            < leafCount (Node.mk l p post nd (some nv) (some ov) (some s1) (some s2)) := by
          rcases prune_eq_or_lt hk s1 with q1 | q1
          · rcases prune_eq_or_lt hk s2 with q2 | q2
            · exact absurd (by rw [q1, q2]) hg
            · have hq1 : leafCount (prune hk s1) = leafCount s1 := by rw [q1]
              omega
          · rcases prune_eq_or_lt hk s2 with q2 | q2
            · have hq2 : leafCount (prune hk s2) = leafCount s2 := by rw [q2]
              omega
            · omega
        exact ihL _ hlt hwn
      · rw [prune_internal_unchanged hk l p post nd nv (some ov) s1 s2 hb hg]
        rw [wf_mk_iff]
        exact Or.inr ⟨nv, ov, _, _, rfl, rfl, rfl, rfl, e5, hp1, hp2⟩

/-- C3: a fitted tree is well-formed: at every node the split representation
(normal and origin) and the two children are stored together (all present or
all absent) alongside a posterior; pruning preserves well-formedness; and on a
well-formed node `is_leaf()` answers (instead of raising) and is true exactly
when no split representation is stored, which also holds exactly when both
children are absent. -/
theorem leaf_invariant (hk : Hooks P) (opt : Optimizer) (level : ℕ) (prior : P)
    (X : List (List ℚ)) (y : List ℚ) (t : Node P) (hw : wf t = true) :
    wf (fitNode hk opt level prior X y) = true ∧
    wf (prune hk t) = true ∧
    (isLeafM t = .ok true ↔ t.normal = none) ∧
    (t.normal = none ↔ t.origin = none) ∧
    (t.normal = none ↔ t.child1 = none) ∧
    (t.child1 = none ↔ t.child2 = none) := by
  refine ⟨wf_fitNode hk opt level prior X y, wf_prune hk t hw, ?_, ?_, ?_, ?_⟩
  all_goals
    rcases t with ⟨l, p, post, nd, nrm, org, c1, c2⟩
    rcases (wf_mk_iff l p post nd nrm org c1 c2).mp hw with
      ⟨e1, e2, e3, e4, e5⟩ | ⟨nv, ov, s1, s2, e1, e2, e3, e4, e5, hw1, hw2⟩ <;>
      subst e1 <;> subst e2 <;> subst e3 <;> subst e4 <;>
      obtain ⟨q, hq⟩ := Option.isSome_iff_exists.mp e5 <;> subst hq <;>
      simp [isLeafM, ensureIsFitted, Node.posterior, Node.normal, Node.origin,
        Node.child1, Node.child2]

/-- C3 witness: evaluation on a concrete well-formed two-leaf tree and a
concrete fit. -/
theorem leaf_invariant_witness :
    wf rootW = true ∧
    (wf (fitNode hooksW optW1 0 0 [[0]] [0]) = true ∧
      wf (prune hooksW rootW) = true ∧
      (isLeafM rootW = .ok true ↔ rootW.normal = none) ∧
      (rootW.normal = none ↔ rootW.origin = none) ∧
      (rootW.normal = none ↔ rootW.child1 = none) ∧
      (rootW.child1 = none ↔ rootW.child2 = none)) :=
  ⟨by decide, leaf_invariant hooksW optW1 0 0 [[0]] [0] rootW (by decide)⟩

theorem scatter_length (idx : List ℕ) (vals base : List ℚ) :
    (scatter base idx vals).length = base.length := by
  induction idx generalizing vals base with
  | nil => rcases vals with _ | ⟨v, vs⟩ <;> rfl
  | cons i is ih =>
    rcases vals with _ | ⟨v, vs⟩
    · rfl
    · rw [scatter, ih, List.length_set]

theorem scatter_get_not_mem (idx : List ℕ) (vals base : List ℚ) (j : ℕ)
    (h : j ∉ idx) : (scatter base idx vals).get? j = base.get? j := by
  induction idx generalizing vals base with
  | nil => rcases vals with _ | ⟨v, vs⟩ <;> rfl
  | cons i is ih =>
    rcases vals with _ | ⟨v, vs⟩
    · rfl
    · rw [scatter, ih vs (base.set i v) (fun hj => h (List.mem_cons_of_mem _ hj))]
      exact List.get?_set_ne v base fun he => h (he ▸ List.mem_cons_self i is)

theorem scatter_get_map (g : ℕ → ℚ) (idx : List ℕ) (base : List ℚ) (j : ℕ)
    (hnd : idx.Nodup) (hj : j ∈ idx) (hlt : j < base.length) :
    (scatter base idx (idx.map g)).get? j = some (g j) := by
  induction idx generalizing base with
  | nil => cases hj
  | cons i is ih =>
    rw [List.map_cons, scatter]
    rcases List.mem_cons.mp hj with hj | hj
    · subst hj
      rw [scatter_get_not_mem is _ _ j (List.nodup_cons.mp hnd).1]
      exact List.get?_set_eq_of_lt (g j) hlt
    · refine ih (base.set i (g i)) (List.nodup_cons.mp hnd).2 hj ?_
      rw [List.length_set]
      exact hlt

theorem get?_eq_rowOf (X : List (List ℚ)) (j : ℕ) (hj : j < X.length) :
    X.get? j = some (rowOf X j) := by
  rcases hx : X.get? j with _ | r
  · have := List.get?_eq_none.mp hx
    omega
  · rw [rowOf, List.getD_eq_get?, hx]
    rfl

theorem nodup_indicesBack (nl o : List ℚ) (X : List (List ℚ)) :
    (indicesBack nl o X).Nodup := (List.nodup_range _).filter _

theorem nodup_indicesFront (nl o : List ℚ) (X : List (List ℚ)) :
    (indicesFront nl o X).Nodup := (List.nodup_range _).filter _

theorem merged_get (nl o : List ℚ) (X : List (List ℚ)) (g1 g2 : ℕ → ℚ) (j : ℕ)
    (hj : j < X.length) :
    (scatter
        (scatter (List.replicate X.length 0)
          (indicesBack nl o X) ((indicesBack nl o X).map g1))
        (indicesFront nl o X) ((indicesFront nl o X).map g2)).get? j
      = some (if signedDist nl o (rowOf X j) < 0 then g1 j else g2 j) := by
  by_cases hs : signedDist nl o (rowOf X j) < 0
  · rw [if_pos hs]
    have hj2 : j ∉ indicesFront nl o X := by
      intro hm
      exact absurd hs (not_lt.mpr (mem_indicesFront.mp hm).2)
    rw [scatter_get_not_mem _ _ _ j hj2]
    exact scatter_get_map g1 _ _ j (nodup_indicesBack nl o X)
      (mem_indicesBack.mpr ⟨hj, hs⟩) (by rw [List.length_replicate]; exact hj)
  · rw [if_neg hs]
    exact scatter_get_map g2 _ _ j (nodup_indicesFront nl o X)
      (mem_indicesFront.mpr ⟨hj, not_lt.mp hs⟩)
      (by rw [scatter_length, List.length_replicate]; exact hj)

theorem predictRec_eq_map_route (hk : Hooks P) :
    ∀ t : Node P, wf t = true → ∀ X : List (List ℚ),
      predictRec hk t X = X.map fun row => leafValue hk (routeLeaf t row) := by
  apply node_structural_induction
    (fun t => wf t = true → ∀ X : List (List ℚ),
      predictRec hk t X = X.map fun row => leafValue hk (routeLeaf t row))
  intro l p post nd nrm org c1 c2 ih1 ih2 hw X
  rcases (wf_mk_iff l p post nd nrm org c1 c2).mp hw with
    ⟨e1, e2, e3, e4, e5⟩ | ⟨nv, ov, s1, s2, e1, e2, e3, e4, e5, hw1, hw2⟩
  · subst e1; subst e2; subst e3; subst e4
    simp [predictRec, routeLeaf, List.map_const']
  · subst e1; subst e2; subst e3; subst e4
    have hr1 := ih1 s1 rfl hw1 ((indicesBack nv ov X).map (rowOf X))
    have hr2 := ih2 s2 rfl hw2 ((indicesFront nv ov X).map (rowOf X))
    simp only [predictRec, Option.getD_some, hr1, hr2, List.map_map]
    apply List.ext_get?
    intro j
    by_cases hj : j < X.length
    · rw [merged_get nv ov X _ _ j hj, List.get?_map, get?_eq_rowOf X j hj,
        Option.map_some']
      congr 1
      rw [routeLeaf]
      simp only [Option.getD_some, Function.comp]
      by_cases hs : signedDist nv ov (rowOf X j) < 0
      · rw [if_pos hs, if_pos hs]
      · rw [if_neg hs, if_neg hs]
    · have hl : X.length ≤ j := by omega
      have e1 : ∀ bs : List ℚ, bs.length = X.length → bs.get? j = none := by
        intro bs hbs
        exact List.get?_eq_none.mpr (by omega)
      rw [e1 _ (by rw [scatter_length, scatter_length, List.length_replicate]),
        e1 _ (by rw [List.length_map])]

/-- C4: for every well-formed fitted tree, the recursive prediction returns
one prediction per input row, in the caller's row order: entry `i` is the
prediction of the leaf that row `i` of `X` routes to, independently of how
rows are split across children and reassembled; consequently any successful
`predict` returns exactly that list. -/
theorem predict_row_order (hk : Hooks P) (t : Node P) (X : List (List ℚ))
    (hw : wf t = true) :
    predictRec hk t X = X.map (fun row => leafValue hk (routeLeaf t row)) ∧
    (∀ r, predict hk t X = .ok r →
      r = X.map fun row => leafValue hk (routeLeaf t row)) := by
  refine ⟨predictRec_eq_map_route hk t hw X, ?_⟩
  intro r hr
  rw [predict] at hr
  rcases he : ensureIsFitted t (some X) with e | u
  · rw [he] at hr
    cases hr
  · rw [he] at hr
    cases hr
    exact predictRec_eq_map_route hk t hw X

/-- C4 witness: evaluation on a concrete two-leaf tree and two concrete rows,
one routed to each side. -/
theorem predict_row_order_witness :
    wf rootW = true ∧
    (predictRec hooksW rootW [[-2], [3]]
        = [[-2], [3]].map (fun row => leafValue hooksW (routeLeaf rootW row)) ∧
     (∀ r, predict hooksW rootW [[-2], [3]] = .ok r →
        r = [[-2], [3]].map fun row => leafValue hooksW (routeLeaf rootW row))) :=
  ⟨by decide, predict_row_order hooksW rootW [[-2], [3]] (by decide)⟩

theorem lc_internal_changed (hk : Hooks P) (l : ℕ) (p : P) (post : Option P)
    (nd : Option ℕ) (nrm : List ℚ) (org : Option (List ℚ)) (c1 c2 : Node P)
    (hg : dlC (Node.mk l p post nd (some nrm) org
          (some (prune hk c1)) (some (prune hk c2)))
        ≠ dlC (Node.mk l p post nd (some nrm) org (some c1) (some c2))) :
    leafCount (Node.mk l p post nd (some nrm) org
        (some (prune hk c1)) (some (prune hk c2)))
      < leafCount (Node.mk l p post nd (some nrm) org (some c1) (some c2)) := by
  have e2 : leafCount (Node.mk l p post nd (some nrm) org (some c1) (some c2))
      = leafCount c1 + leafCount c2 := rfl
  have e5 : leafCount (Node.mk l p post nd (some nrm) org
        (some (prune hk c1)) (some (prune hk c2)))
      = leafCount (prune hk c1) + leafCount (prune hk c2) := rfl
  rcases prune_eq_or_lt hk c1 with q1 | q1
  · rcases prune_eq_or_lt hk c2 with q2 | q2
    · exact absurd (by rw [q1, q2]) hg
    · have hq1 : leafCount (prune hk c1) = leafCount c1 := by rw [q1]
      omega
  · rcases prune_eq_or_lt hk c2 with q2 | q2
    · have hq2 : leafCount (prune hk c2) = leafCount c2 := by rw [q2]
      omega
    · omega

theorem prune_fields (hk : Hooks P) : ∀ t : Node P,
    (prune hk t).level = t.level ∧ (prune hk t).prior = t.prior ∧
      (prune hk t).posterior = t.posterior ∧ (prune hk t).n_dim = t.n_dim := by
  apply node_measure_induction (fun t =>
    (prune hk t).level = t.level ∧ (prune hk t).prior = t.prior ∧
      (prune hk t).posterior = t.posterior ∧ (prune hk t).n_dim = t.n_dim)
  intro t ihL ihS
  rcases t with ⟨l, p, post, nd, nrm, org, c1, c2⟩
  rcases nrm with _ | nv
  · rw [prune_leaf]
    exact ⟨rfl, rfl, rfl, rfl⟩
  · rcases c1 with _ | s1
    · rw [prune_no_child1]
      exact ⟨rfl, rfl, rfl, rfl⟩
    · rcases c2 with _ | s2
      · rw [prune_no_child2]
        exact ⟨rfl, rfl, rfl, rfl⟩
      · by_cases hb : s1.normal.isNone = true ∧ s2.normal.isNone = true
        · by_cases hv : leafValue hk s1 = leafValue hk s2
          · rw [prune_collapse hk l p post nd nv org s1 s2 hb.1 hb.2 hv]
            exact ⟨rfl, rfl, rfl, rfl⟩
          · rw [prune_leaves_ne hk l p post nd nv org s1 s2 hb.1 hb.2 hv]
            exact ⟨rfl, rfl, rfl, rfl⟩
        · by_cases hg : dlC (Node.mk l p post nd (some nv) org
                (some (prune hk s1)) (some (prune hk s2)))
              ≠ dlC (Node.mk l p post nd (some nv) org (some s1) (some s2))
          · rw [prune_internal_changed hk l p post nd nv org s1 s2 hb hg]
            exact ihL _ (lc_internal_changed hk l p post nd nv org s1 s2 hg)
          · rw [prune_internal_unchanged hk l p post nd nv org s1 s2 hb hg]
            exact ⟨rfl, rfl, rfl, rfl⟩

theorem leafValue_eq_of_posterior (hk : Hooks P) (t s : Node P)
    (h : t.posterior = s.posterior) : leafValue hk t = leafValue hk s := by
  rw [leafValue, leafValue, h]

theorem routeLeaf_of_isNone {t : Node P} (h : t.normal.isNone = true)
    (row : List ℚ) : routeLeaf t row = t := by
  rcases t with ⟨l, p, post, nd, nrm, org, c1, c2⟩
  cases nrm with
  | none => rfl
  | some v => simp [Node.normal] at h

theorem pruneStable_of_isNone (hk : Hooks P) {t : Node P}
    (h : t.normal.isNone = true) : pruneStable hk t := by
  rcases t with ⟨l, p, post, nd, nrm, org, c1, c2⟩
  cases nrm with
  | none => trivial
  | some v => simp [Node.normal] at h

theorem valCoherent_mk (hk : Hooks P) (l : ℕ) (p : P) (post : Option P)
    (nd : Option ℕ) (nrm org : Option (List ℚ)) (s1 s2 : Node P) :
    valCoherent hk (Node.mk l p post nd nrm org (some s1) (some s2)) = true ↔
      ((leafValue hk s1 = leafValue hk s2 →
          leafValue hk (Node.mk l p post nd nrm org (some s1) (some s2))
            = leafValue hk s1)
        ∧ valCoherent hk s1 = true ∧ valCoherent hk s2 = true) := by
  simp only [valCoherent, Bool.and_eq_true, decide_eq_true_eq, and_assoc]

theorem valCoherent_replace_children (hk : Hooks P) (l : ℕ) (p : P)
    (post : Option P) (nd : Option ℕ) (nrm org : Option (List ℚ)) (s1 s2 : Node P)
    (hcc : leafValue hk s1 = leafValue hk s2 →
      leafValue hk (Node.mk l p post nd nrm org (some s1) (some s2))
        = leafValue hk s1)
    (hp1 : valCoherent hk (prune hk s1) = true)
    (hp2 : valCoherent hk (prune hk s2) = true) :
    valCoherent hk (Node.mk l p post nd nrm org
        (some (prune hk s1)) (some (prune hk s2))) = true := by
  rw [valCoherent_mk]
  refine ⟨?_, hp1, hp2⟩
  intro hveq
  have v1 : leafValue hk (prune hk s1) = leafValue hk s1 :=
    leafValue_eq_of_posterior hk _ _ (prune_fields hk s1).2.2.1
  have v2 : leafValue hk (prune hk s2) = leafValue hk s2 :=
    leafValue_eq_of_posterior hk _ _ (prune_fields hk s2).2.2.1
  have vt : leafValue hk (Node.mk l p post nd nrm org
        (some (prune hk s1)) (some (prune hk s2)))
      = leafValue hk (Node.mk l p post nd nrm org (some s1) (some s2)) :=
    leafValue_eq_of_posterior hk _ _ rfl
  rw [vt, v1]
  rw [v1, v2] at hveq
  exact hcc hveq

theorem valCoherent_prune (hk : Hooks P) : ∀ t : Node P,
    valCoherent hk t = true → valCoherent hk (prune hk t) = true := by
  apply node_measure_induction (fun t =>
    valCoherent hk t = true → valCoherent hk (prune hk t) = true)
  intro t ihL ihS hc
  rcases t with ⟨l, p, post, nd, nrm, org, c1, c2⟩
  rcases nrm with _ | nv
  · rw [prune_leaf]
    exact hc
  · rcases c1 with _ | s1
    · rw [prune_no_child1]
      exact hc
    · rcases c2 with _ | s2
      · rw [prune_no_child2]
        exact hc
      · obtain ⟨hcc, hc1, hc2⟩ :=
          (valCoherent_mk hk l p post nd (some nv) org s1 s2).mp hc
        by_cases hb : s1.normal.isNone = true ∧ s2.normal.isNone = true
        · by_cases hv : leafValue hk s1 = leafValue hk s2
          · rw [prune_collapse hk l p post nd nv org s1 s2 hb.1 hb.2 hv]
            rfl
          · rw [prune_leaves_ne hk l p post nd nv org s1 s2 hb.1 hb.2 hv]
            exact hc
        · have hsz1 := size_child_lt s1 l p post nd (some nv) org
            (some s1) (some s2) (Or.inl rfl)
          have hsz2 := size_child_lt s2 l p post nd (some nv) org
            (some s1) (some s2) (Or.inr rfl)
          have hlc : leafCount (Node.mk l p post nd (some nv) org (some s1) (some s2))
              = leafCount s1 + leafCount s2 := rfl
          have hp1 := ihS s1 (by omega) hsz1 hc1
          have hp2 := ihS s2 (by omega) hsz2 hc2
          have hct := valCoherent_replace_children hk l p post nd (some nv) org
            s1 s2 hcc hp1 hp2
          by_cases hg : dlC (Node.mk l p post nd (some nv) org
                (some (prune hk s1)) (some (prune hk s2)))
              ≠ dlC (Node.mk l p post nd (some nv) org (some s1) (some s2))
          · rw [prune_internal_changed hk l p post nd nv org s1 s2 hb hg]
            exact ihL _ (lc_internal_changed hk l p post nd nv org s1 s2 hg) hct
          · rw [prune_internal_unchanged hk l p post nd nv org s1 s2 hb hg]
            exact hct

theorem route_leafValue_prune (hk : Hooks P) : ∀ t : Node P, wf t = true →
    valCoherent hk t = true → ∀ row : List ℚ,
      leafValue hk (routeLeaf (prune hk t) row)
        = leafValue hk (routeLeaf t row) := by
  apply node_measure_induction (fun t => wf t = true →
    valCoherent hk t = true → ∀ row : List ℚ,
      leafValue hk (routeLeaf (prune hk t) row)
        = leafValue hk (routeLeaf t row))
  intro t ihL ihS hw hc row
  rcases t with ⟨l, p, post, nd, nrm, org, c1, c2⟩
  rcases (wf_mk_iff l p post nd nrm org c1 c2).mp hw with
    ⟨e1, e2, e3, e4, e5⟩ | ⟨nv, ov, s1, s2, e1, e2, e3, e4, e5, hw1, hw2⟩
  · subst e1; subst e2; subst e3; subst e4
    rw [prune_leaf]
  · subst e1; subst e2; subst e3; subst e4
    obtain ⟨hcc, hc1, hc2⟩ :=
      (valCoherent_mk hk l p post nd (some nv) (some ov) s1 s2).mp hc
    by_cases hb : s1.normal.isNone = true ∧ s2.normal.isNone = true
    · by_cases hv : leafValue hk s1 = leafValue hk s2
      · rw [prune_collapse hk l p post nd nv (some ov) s1 s2 hb.1 hb.2 hv]
        rw [routeLeaf_of_isNone
          (t := Node.mk l p post nd none none none none) rfl row]
        rw [routeLeaf]
        simp only [Option.getD_some]
        have hval : leafValue hk (Node.mk l p post nd none none none none (P := P))
            = leafValue hk (Node.mk l p post nd (some nv) (some ov)
                (some s1) (some s2)) :=
          leafValue_eq_of_posterior hk _ _ rfl
        rw [hval]
        have ht := hcc hv
        by_cases hs : signedDist nv ov row < 0
        · rw [if_pos hs, routeLeaf_of_isNone hb.1 row, ht]
        · rw [if_neg hs, routeLeaf_of_isNone hb.2 row, ht, hv]
      · rw [prune_leaves_ne hk l p post nd nv (some ov) s1 s2 hb.1 hb.2 hv]
    · have hsz1 := size_child_lt s1 l p post nd (some nv) (some ov)
        (some s1) (some s2) (Or.inl rfl)
      have hsz2 := size_child_lt s2 l p post nd (some nv) (some ov)
        (some s1) (some s2) (Or.inr rfl)
      have hlc : leafCount (Node.mk l p post nd (some nv) (some ov)
            (some s1) (some s2))
          = leafCount s1 + leafCount s2 := rfl
      have key : ∀ r : List ℚ,
          leafValue hk (routeLeaf (Node.mk l p post nd (some nv) (some ov)
            (some (prune hk s1)) (some (prune hk s2))) r)
          = leafValue hk (routeLeaf (Node.mk l p post nd (some nv) (some ov)
              (some s1) (some s2)) r) := by
        intro r
        rw [routeLeaf, routeLeaf]
        simp only [Option.getD_some]
        by_cases hs : signedDist nv ov r < 0
        · rw [if_pos hs, if_pos hs]
          exact ihS s1 (by omega) hsz1 hw1 hc1 r
        · rw [if_neg hs, if_neg hs]
          exact ihS s2 (by omega) hsz2 hw2 hc2 r
      by_cases hg : dlC (Node.mk l p post nd (some nv) (some ov)
            (some (prune hk s1)) (some (prune hk s2)))
          ≠ dlC (Node.mk l p post nd (some nv) (some ov) (some s1) (some s2))
      · rw [prune_internal_changed hk l p post nd nv (some ov) s1 s2 hb hg]
        have hwt : wf (Node.mk l p post nd (some nv) (some ov)
            (some (prune hk s1)) (some (prune hk s2))) = true := by
          rw [wf_mk_iff]
          exact Or.inr ⟨nv, ov, _, _, rfl, rfl, rfl, rfl, e5,
            wf_prune hk s1 hw1, wf_prune hk s2 hw2⟩
        have hct := valCoherent_replace_children hk l p post nd (some nv) (some ov)
          s1 s2 hcc (valCoherent_prune hk s1 hc1) (valCoherent_prune hk s2 hc2)
        rw [ihL _ (lc_internal_changed hk l p post nd nv (some ov) s1 s2 hg)
          hwt hct row]
        exact key row
      · rw [prune_internal_unchanged hk l p post nd nv (some ov) s1 s2 hb hg]
        exact key row

/-- C5: on a well-formed fitted tree whose model hooks are coherent (a parent
whose two children predict the same value predicts that value as well — the
property of the Bayesian posteriors that pruning relies on), pruning changes
no prediction: `predict` agrees before and after on every input (in
particular on every training row), and the leaf count reported by
`depth_and_leaves` does not increase.  Pruning only ever collapses an
internal node whose two leaf children carry identical predictions, which is
what makes the first conjunct possible. -/
theorem prune_preserves_predictions (hk : Hooks P) (t : Node P)
    (hw : wf t = true) (hc : valCoherent hk t = true) :
    (∀ X : List (List ℚ), predict hk (prune hk t) X = predict hk t X) ∧
    (depthAndLeaves (prune hk t)).2 ≤ (depthAndLeaves t).2 := by
  constructor
  · intro X
    rw [predict, predict]
    have hens : ensureIsFitted (prune hk t) (some X) = ensureIsFitted t (some X) := by
      rw [ensureIsFitted, ensureIsFitted, (prune_fields hk t).2.2.1,
        (prune_fields hk t).2.2.2]
    rw [hens]
    rcases he : ensureIsFitted t (some X) with e | u
    · rfl
    · show Except.ok (predictRec hk (prune hk t) X) = Except.ok (predictRec hk t X)
      congr 1
      rw [predictRec_eq_map_route hk _ (wf_prune hk t hw) X,
        predictRec_eq_map_route hk t hw X]
      exact List.map_congr_left fun row _ => route_leafValue_prune hk t hw hc row
  · rw [depthAndLeaves_eq_dlC, depthAndLeaves_eq_dlC]
    rcases prune_eq_or_lt hk t with hq | hq
    · rw [hq]
    · exact Nat.le_of_lt hq

/-- C5 witness: evaluation on a concrete coherent two-leaf tree. -/
theorem prune_preserves_predictions_witness :
    wf rootW = true ∧ valCoherent hooksW rootW = true ∧
    ((∀ X : List (List ℚ), predict hooksW (prune hooksW rootW) X
        = predict hooksW rootW X) ∧
      (depthAndLeaves (prune hooksW rootW)).2 ≤ (depthAndLeaves rootW).2) :=
  ⟨by decide, by decide,
    prune_preserves_predictions hooksW rootW (by decide) (by decide)⟩

theorem stable_prune_id (hk : Hooks P) : ∀ t : Node P,
    pruneStable hk t → prune hk t = t := by
  apply node_structural_induction (fun t => pruneStable hk t → prune hk t = t)
  intro l p post nd nrm org c1 c2 ih1 ih2 hs
  rcases nrm with _ | nv
  · exact prune_leaf hk l p post nd org c1 c2
  · rcases c1 with _ | s1
    · exact prune_no_child1 hk l p post nd nv org c2
    · rcases c2 with _ | s2
      · exact prune_no_child2 hk l p post nd nv org s1
      · obtain ⟨hs1, hs2, hnc⟩ := hs
        by_cases hb : s1.normal.isNone = true ∧ s2.normal.isNone = true
        · have hv : ¬ leafValue hk s1 = leafValue hk s2 := fun hv =>
            hnc ⟨hb.1, hb.2, hv⟩
          exact prune_leaves_ne hk l p post nd nv org s1 s2 hb.1 hb.2 hv
        · have q1 : prune hk s1 = s1 := ih1 s1 rfl hs1
          have q2 : prune hk s2 = s2 := ih2 s2 rfl hs2
          have hg : ¬ dlC (Node.mk l p post nd (some nv) org
                (some (prune hk s1)) (some (prune hk s2)))
              ≠ dlC (Node.mk l p post nd (some nv) org (some s1) (some s2)) := by
            rw [q1, q2]
            exact fun hne => hne rfl
          rw [prune_internal_unchanged hk l p post nd nv org s1 s2 hb hg, q1, q2]

theorem prune_stable (hk : Hooks P) : ∀ t : Node P, pruneStable hk (prune hk t) := by
  apply node_measure_induction (fun t => pruneStable hk (prune hk t))
  intro t ihL ihS
  rcases t with ⟨l, p, post, nd, nrm, org, c1, c2⟩
  rcases nrm with _ | nv
  · rw [prune_leaf]
    trivial
  · rcases c1 with _ | s1
    · rw [prune_no_child1]
      trivial
    · rcases c2 with _ | s2
      · rw [prune_no_child2]
        trivial
      · by_cases hb : s1.normal.isNone = true ∧ s2.normal.isNone = true
        · by_cases hv : leafValue hk s1 = leafValue hk s2
          · rw [prune_collapse hk l p post nd nv org s1 s2 hb.1 hb.2 hv]
            trivial
          · rw [prune_leaves_ne hk l p post nd nv org s1 s2 hb.1 hb.2 hv]
            exact ⟨pruneStable_of_isNone hk hb.1, pruneStable_of_isNone hk hb.2,
              fun hx => hv hx.2.2⟩
        · have hsz1 := size_child_lt s1 l p post nd (some nv) org
            (some s1) (some s2) (Or.inl rfl)
          have hsz2 := size_child_lt s2 l p post nd (some nv) org
            (some s1) (some s2) (Or.inr rfl)
          have hlc : leafCount (Node.mk l p post nd (some nv) org (some s1) (some s2))
              = leafCount s1 + leafCount s2 := rfl
          by_cases hg : dlC (Node.mk l p post nd (some nv) org
                (some (prune hk s1)) (some (prune hk s2)))
              ≠ dlC (Node.mk l p post nd (some nv) org (some s1) (some s2))
          · rw [prune_internal_changed hk l p post nd nv org s1 s2 hb hg]
            exact ihL _ (lc_internal_changed hk l p post nd nv org s1 s2 hg)
          · have heq := of_not_not hg
            have hsnd : leafCount (Node.mk l p post nd (some nv) org
                  (some (prune hk s1)) (some (prune hk s2)))
                = leafCount (Node.mk l p post nd (some nv) org (some s1) (some s2)) :=
              congrArg Prod.snd heq
            have e5 : leafCount (Node.mk l p post nd (some nv) org
                  (some (prune hk s1)) (some (prune hk s2)))
                = leafCount (prune hk s1) + leafCount (prune hk s2) := rfl
            have q1 : prune hk s1 = s1 := by
              rcases prune_eq_or_lt hk s1 with q | q
              · exact q
              · exfalso
                rcases prune_eq_or_lt hk s2 with q2 | q2
                · have hq2 : leafCount (prune hk s2) = leafCount s2 := by rw [q2]
                  omega
                · omega
            have q2 : prune hk s2 = s2 := by
              rcases prune_eq_or_lt hk s2 with q | q
              · exact q
              · exfalso
                rcases prune_eq_or_lt hk s1 with q1a | q1a
                · have hq1 : leafCount (prune hk s1) = leafCount s1 := by rw [q1a]
                  omega
                · omega
            rw [prune_internal_unchanged hk l p post nd nv org s1 s2 hb hg, q1, q2]
            have hp1 := ihS s1 (by omega) hsz1
            have hp2 := ihS s2 (by omega) hsz2
            rw [q1] at hp1
            rw [q2] at hp2
            exact ⟨hp1, hp2, fun hx => hb ⟨hx.1, hx.2.1⟩⟩

/-- C6: pruning reaches a fixpoint: re-running `_prune` on an already pruned
tree changes nothing — no node is collapsed and the tree (topology, split
representations and all stored fields) is returned unchanged. -/
theorem prune_idempotent (hk : Hooks P) (t : Node P) :
    prune hk (prune hk t) = prune hk t :=
  stable_prune_id hk (prune hk t) (prune_stable hk t)

/-- C2 witness: evaluation of the partition characterization at a concrete
node, input and row index. -/
theorem child_partition_disjoint_exhaustive_witness :
    (0 ∈ (computeChild1AndChild2Indices rootW [[3]]).1 ↔
      0 < ([[3]] : List (List ℚ)).length ∧
        signedDist (rootW.normal.getD []) (rootW.origin.getD [])
          (rowOf [[3]] 0) < 0) ∧
    (0 ∈ (computeChild1AndChild2Indices rootW [[3]]).2 ↔
      0 < ([[3]] : List (List ℚ)).length ∧
        0 ≤ signedDist (rootW.normal.getD []) (rootW.origin.getD [])
          (rowOf [[3]] 0)) ∧
    ¬ (0 ∈ (computeChild1AndChild2Indices rootW [[3]]).1 ∧
        0 ∈ (computeChild1AndChild2Indices rootW [[3]]).2) ∧
    (0 ∈ (computeChild1AndChild2Indices rootW [[3]]).1 ∨
        0 ∈ (computeChild1AndChild2Indices rootW [[3]]).2 ↔
      0 < ([[3]] : List (List ℚ)).length) :=
  child_partition_disjoint_exhaustive rootW [[3]] 0

/-- C9 witness: evaluation of the predict error characterization at a concrete
fitted node and input. -/
theorem predict_error_conditions_witness :
    (predict hooksW rootW [[3]] = .error .notFitted ↔ rootW.posterior = none) ∧
    (predict hooksW rootW [[3]]
        = .error (.badDimensions rootW.n_dim (ncols [[3]])) ↔
      rootW.posterior ≠ none ∧ some (ncols [[3]]) ≠ rootW.n_dim) ∧
    ((∃ r, predict hooksW rootW [[3]] = .ok r) ↔
      rootW.posterior ≠ none ∧ some (ncols [[3]]) = rootW.n_dim) :=
  predict_error_conditions hooksW rootW [[3]]

/-- C10 witness: evaluation of the unfitted `is_leaf` characterization at a
concrete unfitted node. -/
theorem is_leaf_unfitted_raises_witness :
    isLeafM unfitW = .error .notFitted ↔ unfitW.posterior = none :=
  is_leaf_unfitted_raises unfitW

end Theorems

end BDT
